import Mathlib

/-!
Verification of the multiples-of-5 count/max benchmark program (`main.cpp`).

The program computes, over a vector of C `int` values, the number of elements
divisible by 5 and the maximum such element, by three strategies:
`linearExecution` (single-threaded scan), `parallelWithMutex` (per-partition
scan, merge under a lock) and `parallelWithCAS` (per-partition scan, merge
via atomic fetch-add and a compare-and-swap retry loop).

Shallow embedding conventions:
* C `int` values are modelled as `Int`; where a claim depends on the 32-bit
  range of the source type, the theorem carries the explicit hypothesis that
  every dataset element lies in `[-2^31, 2^31)`.
* `value % 5 == 0` in C++ uses truncated remainder, modelled by `Int.tmod`.
* The parallel reducers return `Option`: `numThreads = 0` would divide by
  zero in `data.size() / numThreads`, so that case is the `none` branch.
* The sequential effect of each worker's merge step is a pure state update;
  the concurrent CAS retry loop of `processSectionWithCAS` is additionally
  modelled operationally by the step relation `CasStep` below, in which
  `compare_exchange` succeeds exactly when the shared cell still holds the
  expected value.
-/

/-! ### Definitions -/

/-- The `INT_MIN` of a 32-bit `int`, the sentinel used by all three reducers. -/
def INT_MIN : Int := -(2 ^ 31)

/-- The `INT_MAX` of a 32-bit `int`. -/
def INT_MAX : Int := 2 ^ 31 - 1

/-- The element test `value % 5 == 0` (C++ truncated remainder, `main.cpp`
lines 22/36/76). -/
def div5 (v : Int) : Bool := v.tmod 5 == 0

/-- One iteration of the scan loop body shared by `linearExecution`
(lines 21-28) and the local loops of both section workers (lines 35-42,
75-82): on a multiple of 5, increment the count and update the running
maximum by a greater-than comparison. -/
def scanStep (acc : Nat × Int) (v : Int) : Nat × Int :=
  if div5 v then (acc.1 + 1, if v > acc.2 then v else acc.2) else acc

/-- Function `linearExecution` (`main.cpp` lines 18-29): full scan from
`count = 0`, `maxValue = INT_MIN`. -/
def linearExecution (data : List Int) : Nat × Int :=
  data.foldl scanStep (0, INT_MIN)

/-- The indexed loop `for (int i = start; i < end; ++i)` of the section
workers, with fuel `end - start`: visits `data[i]` for `start ≤ i < end`. -/
def scanLoop (data : List Int) : Nat → Nat → Nat × Int → Nat × Int
  | 0, _, acc => acc
  | fuel + 1, i, acc => scanLoop data fuel (i + 1) (scanStep acc (data.getD i 0))

/-- Local scan of the half-open index range `[start, stop)`
(`main.cpp` lines 33-42 and 73-82). -/
def sectionScan (data : List Int) (start stop : Nat) : Nat × Int :=
  scanLoop data (stop - start) start (0, INT_MIN)

/-- The merge step performed inside the critical section (`main.cpp`
lines 44-47): add the local count into the shared count, update the shared
max by a greater-than comparison. -/
def mergeStep (shared localAgg : Nat × Int) : Nat × Int :=
  (shared.1 + localAgg.1, if localAgg.2 > shared.2 then localAgg.2 else shared.2)

/-- Function `processSectionWithMutex` (`main.cpp` lines 32-48) as the update it
performs on the shared accumulator: local scan, then the locked merge. -/
def processSectionWithMutex (start stop : Nat) (data : List Int)
    (shared : Nat × Int) : Nat × Int :=
  mergeStep shared (sectionScan data start stop)

/-- Function `processSectionWithCAS` (`main.cpp` lines 72-89) as the update it
performs on the shared accumulator: local scan, `fetch_add` of the local
count, and the net effect of the CAS retry loop on the shared max (the
conditional update to the larger value).  The loop itself is modelled
operationally by `CasStep`. -/
def processSectionWithCAS (start stop : Nat) (data : List Int)
    (shared : Nat × Int) : Nat × Int :=
  let localres := sectionScan data start stop
  (shared.1 + localres.1, if localres.2 > shared.2 then localres.2 else shared.2)

/-- The partition of worker `t` (`main.cpp` lines 58-60 and 98-100):
`start = t * chunkSize`, `end = (t == numThreads - 1) ? data.size() :
start + chunkSize`, with `chunkSize = data.size() / numThreads`. -/
def partitionRange (L T t : Nat) : Nat × Nat :=
  (t * (L / T), if t = T - 1 then L else t * (L / T) + L / T)

/-- Function `parallelWithMutex` (`main.cpp` lines 51-69).  `numThreads = 0` would
divide by zero in `data.size() / numThreads` and is the error branch; the
workers' locked merges are applied in spawn order (any order gives the same
result, see `mergeStep_comm`/`foldl_mergeStep_perm`). -/
def parallelWithMutex (data : List Int) (numThreads : Nat) : Option (Nat × Int) :=
  if numThreads = 0 then none
  else some (((List.range numThreads).map
      (fun t => partitionRange data.length numThreads t)).foldl
    (fun shared r => processSectionWithMutex r.1 r.2 data shared) (0, INT_MIN))

/-- Function `parallelWithCAS` (`main.cpp` lines 92-112), same shape with the CAS
workers and atomics initialised to `(0, INT_MIN)` (lines 93-94). -/
def parallelWithCAS (data : List Int) (numThreads : Nat) : Option (Nat × Int) :=
  if numThreads = 0 then none
  else some (((List.range numThreads).map
      (fun t => partitionRange data.length numThreads t)).foldl
    (fun shared r => processSectionWithCAS r.1 r.2 data shared) (0, INT_MIN))

/-- Modelled from the spec (§3 Aggregate Result, §4.2): the number of
elements divisible by 5, and the maximum such element, `INT_MIN` when there
is none. -/
def specAggregate (data : List Int) : Nat × Int :=
  let q := data.filter (fun v => v % 5 == 0)
  (q.length, match q.max? with
    | none => INT_MIN
    | some m => m)

/-- Control state of one CAS worker in the retry loop of
`processSectionWithCAS` (`main.cpp` lines 85-88): about to load the shared
max, holding an observed value `cur`, or out of the loop. -/
inductive CasPc where
  | start : CasPc
  | loaded (cur : Int) : CasPc
  | done : CasPc
deriving DecidableEq

/-- Global state of the lock-free merge phase: the shared atomic max and
every worker's control state. -/
structure CasState (n : Nat) where
  sharedMax : Int
  pc : Fin n → CasPc

/-- Initial state of the merge phase of `parallelWithCAS`: the shared
atomic max holds `INT_MIN` (`main.cpp` line 94) and every worker is about
to perform its first load (line 85). -/
def casInit (n : Nat) : CasState n := ⟨INT_MIN, fun _ => CasPc.start⟩

/-- Interleaving semantics of the CAS retry loop, `lm i` being worker `i`'s
local max: `load` reads the shared max (lines 85/87); `exitLe` leaves the
loop when the local max does not exceed the observed value (line 86, first
conjunct); `casOk` is a successful compare-exchange installing the local
max; `casFail` is a compare-exchange that fails because the shared value
moved since the load, sending the worker back to reload. -/
inductive CasStep {n : Nat} (lm : Fin n → Int) : CasState n → CasState n → Prop where
  | load (s : CasState n) (i : Fin n) : s.pc i = CasPc.start →
      CasStep lm s ⟨s.sharedMax, Function.update s.pc i (CasPc.loaded s.sharedMax)⟩
  | exitLe (s : CasState n) (i : Fin n) (cur : Int) : s.pc i = CasPc.loaded cur →
      lm i ≤ cur →
      CasStep lm s ⟨s.sharedMax, Function.update s.pc i CasPc.done⟩
  | casOk (s : CasState n) (i : Fin n) (cur : Int) : s.pc i = CasPc.loaded cur →
      cur < lm i → s.sharedMax = cur →
      CasStep lm s ⟨lm i, Function.update s.pc i CasPc.done⟩
  | casFail (s : CasState n) (i : Fin n) (cur : Int) : s.pc i = CasPc.loaded cur →
      cur < lm i → s.sharedMax ≠ cur →
      CasStep lm s ⟨s.sharedMax, Function.update s.pc i CasPc.start⟩

/-- Inductive invariant of the merge phase: the shared max never drops
below its initial value, always holds either the initial value or some
worker's local max, every observed value is between `INT_MIN` and the
current shared max, and every finished worker's local max is already
covered by the shared max. -/
def CasInv {n : Nat} (lm : Fin n → Int) (s : CasState n) : Prop :=
  INT_MIN ≤ s.sharedMax
  ∧ (s.sharedMax = INT_MIN ∨ ∃ j, lm j = s.sharedMax)
  ∧ (∀ i cur, s.pc i = CasPc.loaded cur → INT_MIN ≤ cur ∧ cur ≤ s.sharedMax)
  ∧ (∀ i, s.pc i = CasPc.done → lm i ≤ s.sharedMax)

/-- Number of workers whose local max strictly exceeds `x` — the candidate
values that could still displace an observed value `x`. -/
def candAbove {n : Nat} (lm : Fin n → Int) (x : Int) : Nat :=
  (Finset.univ.filter (fun j => x < lm j)).card

/-- Progress measure of a single worker, given the current shared max. -/
def pcMeasure {n : Nat} (lm : Fin n → Int) (sh : Int) : CasPc → Nat
  | CasPc.done => 0
  | CasPc.loaded cur => 1 + 2 * candAbove lm cur
  | CasPc.start => 2 + 2 * candAbove lm sh

/-- Global progress measure: every `CasStep` strictly decreases it. -/
def casMeasure {n : Nat} (lm : Fin n → Int) (s : CasState n) : Nat :=
  ∑ i : Fin n, pcMeasure lm s.sharedMax (s.pc i)

/-- Worker `t`'s local maximum over its partition in `parallelWithCAS`. -/
def casLocalMax (data : List Int) (T t : Nat) : Int :=
  (sectionScan data (partitionRange data.length T t).1
    (partitionRange data.length T t).2).2

/-- The decimal digit character for `d % 10`. -/
def digitChar (d : Nat) : Char :=
  ['0', '1', '2', '3', '4', '5', '6', '7', '8', '9'].getD (d % 10) '9'

/-- Decimal digits of `n`, most significant first; `fuel` dominates the
number of digits. -/
def natCharsAux : Nat → Nat → List Char
  | 0, _ => []
  | fuel + 1, n =>
    if n < 10 then [digitChar n]
    else natCharsAux fuel (n / 10) ++ [digitChar (n % 10)]

/-- Decimal notation of a natural number, as `operator<<` prints it. -/
def natChars (n : Nat) : List Char := natCharsAux (n + 1) n

/-- Decimal notation of an `int`, as `operator<<` prints it. -/
def intChars (v : Int) : List Char :=
  if v < 0 then '-' :: natChars v.natAbs else natChars v.natAbs

/-- Value `r` as exactly six zero-padded fraction digits. -/
def pad6 (r : Nat) : List Char :=
  List.replicate (6 - (natChars r).length) '0' ++ natChars r

/-- The elapsed time as `fixed << setprecision(6)` prints a non-negative
seconds value (`main.cpp` lines 135/145/156), modelled at microsecond
resolution: integer seconds, a decimal point, six fraction digits. -/
def fixed6Chars (micros : Nat) : List Char :=
  natChars (micros / 1000000) ++ '.' :: pad6 (micros % 1000000)

/-- Strategy names printed by the driver. -/
def modeLinear : List Char := ['L', 'i', 'n', 'e', 'a', 'r']

def modeMutex : List Char := ['M', 'u', 't', 'e', 'x']

def modeCAS : List Char := ['C', 'A', 'S']

/-- The thread-count field: the count, or the placeholder `-` on the
linear row (`main.cpp` line 135). -/
def threadsField : Option Nat → List Char
  | none => ['-']
  | some th => natChars th

/-- One data line of the report (`main.cpp` lines 135, 145, 156): size,
two tabs, thread field, tab, mode, tab, elapsed time, tab, count, tab,
max value. -/
def dataLine (size : Nat) (threads : Option Nat) (mode : List Char)
    (elapsedMicros : Nat) (count : Nat) (maxValue : Int) : List Char :=
  natChars size ++ '\t' :: '\t' ::
    (threadsField threads ++ '\t' ::
      (mode ++ '\t' ::
        (fixed6Chars elapsedMicros ++ '\t' ::
          (natChars count ++ '\t' :: intChars maxValue))))

/-- Split a character list at tab characters. -/
def splitTabs : List Char → List (List Char)
  | [] => [[]]
  | c :: cs =>
    if c = '\t' then [] :: splitTabs cs
    else match splitTabs cs with
      | [] => [[c]]
      | f :: rest => (c :: f) :: rest

/-! ### Theorems -/

example : linearExecution [5, 3, 10, 22, 25, 7] = (3, 25) := by decide

example : linearExecution [7] = (0, INT_MIN) := by decide

example : parallelWithMutex [5, 3, 10, 22, 25, 7] 3 = some (3, 25) := by decide

example : parallelWithCAS [5, 3, 10, 22, 25, 7] 4 = some (3, 25) := by decide

example : specAggregate [5, 3, 10, 22, 25, 7] = (3, 25) := by decide

example : linearExecution [-5, -3] = (1, -5) := by decide

/-- The running-maximum update `if v > m then v else m` is `max m v`. -/
theorem if_gt_eq_max (m v : Int) : (if v > m then v else m) = max m v := by
  rcases le_or_lt v m with h | h
  · rw [if_neg (not_lt.mpr h), max_eq_left h]
  · rw [if_pos h, max_eq_right h.le]

/-- Characterisation of the scan: the count field accumulates `countP div5`
and the max field folds `max` over the multiples of 5. -/
theorem foldl_scanStep_char (data : List Int) : ∀ (c : Nat) (m : Int),
    data.foldl scanStep (c, m) =
      (c + data.countP div5, (data.filter div5).foldl max m) := by
  induction data with
  | nil => intro c m; simp
  | cons v rest ih =>
    intro c m
    by_cases h : div5 v
    · simp only [List.foldl_cons, scanStep, h, if_true, if_gt_eq_max,
        List.countP_cons, List.filter_cons, ih, List.foldl_cons]
      refine Prod.ext ?_ rfl
      simp [h]
      omega
    · simp only [List.foldl_cons, scanStep, h, if_false, List.countP_cons,
        List.filter_cons, ih, Bool.false_eq_true]
      refine Prod.ext ?_ ?_ <;> simp [h]

/-- The seed of a `max`-fold is a lower bound of the result. -/
theorem le_foldl_max (l : List Int) : ∀ b : Int, b ≤ l.foldl max b := by
  induction l with
  | nil => intro b; simp
  | cons v rest ih => intro b; exact le_trans (le_max_left b v) (ih (max b v))

/-- A `max`-fold from a larger seed is the `max` of the seed with the fold
from a smaller seed. -/
theorem foldl_max_split (l : List Int) : ∀ a b : Int, b ≤ a →
    l.foldl max a = max a (l.foldl max b) := by
  induction l with
  | nil => intro a b h; exact (max_eq_left h).symm
  | cons v rest ih =>
    intro a b h
    rw [List.foldl_cons, List.foldl_cons, ih (max a v) (max b v) (max_le_max h le_rfl)]
    have hv : v ≤ rest.foldl max (max b v) :=
      le_trans (le_max_right b v) (le_foldl_max rest (max b v))
    rw [max_assoc, max_eq_right hv]

/-- The linear scan is a homomorphism from list append to `mergeStep`:
scanning a concatenation equals scanning the parts and merging. -/
theorem linearExecution_append (l1 l2 : List Int) :
    linearExecution (l1 ++ l2) = mergeStep (linearExecution l1) (linearExecution l2) := by
  unfold linearExecution mergeStep
  rw [foldl_scanStep_char, foldl_scanStep_char, foldl_scanStep_char]
  simp only [List.countP_append, List.filter_append, List.foldl_append,
    if_gt_eq_max, Prod.mk.injEq]
  refine ⟨by omega, ?_⟩
  exact foldl_max_split (l2.filter div5) _ INT_MIN (le_foldl_max _ INT_MIN)

/-- The indexed section loop agrees with a fold over the corresponding
slice of the dataset, as long as the range stays in bounds. -/
theorem scanLoop_eq_foldl (data : List Int) :
    ∀ (fuel i : Nat) (acc : Nat × Int), i + fuel ≤ data.length →
      scanLoop data fuel i acc = ((data.drop i).take fuel).foldl scanStep acc := by
  intro fuel
  induction fuel with
  | zero => intro i acc _; simp [scanLoop]
  | succ fuel ih =>
    intro i acc h
    have hi : i < data.length := by omega
    rw [scanLoop, ih (i + 1) _ (by omega), List.drop_eq_getElem_cons hi,
      List.take_succ_cons, List.foldl_cons]
    have hd : data.getD i 0 = data[i] := by
      rw [List.getD_eq_getElem?_getD, List.getElem?_eq_getElem hi, Option.getD_some]
    rw [hd]

/-- A section worker's local scan of `[start, stop)` equals the linear scan
of the corresponding slice. -/
theorem sectionScan_eq_linear (data : List Int) (start stop : Nat)
    (h : stop ≤ data.length) :
    sectionScan data start stop = linearExecution ((data.drop start).take (stop - start)) := by
  unfold sectionScan linearExecution
  rcases le_or_lt start stop with hle | hlt
  · exact scanLoop_eq_foldl data (stop - start) start _ (by omega)
  · simp [Nat.sub_eq_zero_of_le hlt.le, scanLoop]

/-- Merging the local results of the first `j` partitions (in spawn order)
equals the linear scan of the prefix they jointly cover. -/
theorem fold_partitions_take (data : List Int) (T : Nat) (hT : 1 ≤ T) :
    ∀ j, j ≤ T →
      ((List.range j).map (fun t => partitionRange data.length T t)).foldl
          (fun shared r => mergeStep shared (sectionScan data r.1 r.2)) (0, INT_MIN)
        = linearExecution
            (data.take (if j = T then data.length else j * (data.length / T))) := by
  intro j
  induction j with
  | zero =>
    intro h0
    rw [if_neg (by omega : ¬ (0 : Nat) = T)]
    simp [linearExecution]
  | succ j ih =>
    intro hj
    have hjT : j < T := by omega
    have hc : T * (data.length / T) ≤ data.length := Nat.mul_div_le data.length T
    rw [List.range_succ, List.map_append, List.foldl_append, ih (le_of_lt hjT)]
    simp only [List.map_cons, List.map_nil, List.foldl_cons, List.foldl_nil,
      partitionRange, if_neg (by omega : ¬ j = T)]
    by_cases hlast : j = T - 1
    · have hjs : j + 1 = T := by omega
      have hle : j * (data.length / T) ≤ data.length := by
        calc j * (data.length / T) ≤ T * (data.length / T) :=
              Nat.mul_le_mul_right _ (le_of_lt hjT)
          _ ≤ data.length := hc
      rw [if_pos hlast, sectionScan_eq_linear data _ _ le_rfl,
        ← linearExecution_append, ← List.take_add,
        Nat.add_sub_cancel' hle, if_pos hjs, List.take_length]
    · have hjs : ¬ (j + 1 = T) := by omega
      rw [if_neg hlast, sectionScan_eq_linear data _ _ ?hbound]
      case hbound =>
        calc j * (data.length / T) + data.length / T
            = (j + 1) * (data.length / T) := (Nat.succ_mul j _).symm
          _ ≤ T * (data.length / T) := Nat.mul_le_mul_right _ (by omega)
          _ ≤ data.length := hc
      rw [← linearExecution_append, ← List.take_add, if_neg hjs, Nat.succ_mul]
      have harg : j * (data.length / T) +
          (j * (data.length / T) + data.length / T - j * (data.length / T))
          = j * (data.length / T) + data.length / T := by
        rw [Nat.add_sub_cancel_left]
      rw [harg]

/-- Merging all `T` partitions' local results equals the full linear scan. -/
theorem parallel_fold_eq_linear (data : List Int) (T : Nat) (hT : 1 ≤ T) :
    ((List.range T).map (fun t => partitionRange data.length T t)).foldl
        (fun shared r => mergeStep shared (sectionScan data r.1 r.2)) (0, INT_MIN)
      = linearExecution data := by
  have h := fold_partitions_take data T hT T le_rfl
  simpa [List.take_length] using h

/-- The lock-based reducer returns the linear result for every positive
thread count. -/
theorem parallelWithMutex_eq_linear (data : List Int) (T : Nat) (hT : 1 ≤ T) :
    parallelWithMutex data T = some (linearExecution data) := by
  unfold parallelWithMutex
  rw [if_neg (by omega : ¬ T = 0)]
  exact congrArg some (parallel_fold_eq_linear data T hT)

/-- The lock-free reducer returns the linear result for every positive
thread count. -/
theorem parallelWithCAS_eq_linear (data : List Int) (T : Nat) (hT : 1 ≤ T) :
    parallelWithCAS data T = some (linearExecution data) := by
  unfold parallelWithCAS
  rw [if_neg (by omega : ¬ T = 0)]
  exact congrArg some (parallel_fold_eq_linear data T hT)

/-- The C++ truncated-remainder test agrees with divisibility by 5. -/
theorem div5_iff_dvd (v : Int) : div5 v = true ↔ (5 : Int) ∣ v := by
  unfold div5
  rw [beq_iff_eq]
  constructor
  · intro h
    have hv := Int.tmod_add_tdiv v 5
    rw [h, zero_add] at hv
    exact ⟨v.tdiv 5, hv.symm⟩
  · intro h
    exact Int.tmod_eq_zero_of_dvd h

/-- The truncated-remainder test of the code and the Euclidean-remainder
test of the spec model coincide. -/
theorem div5_eq_emod (v : Int) : div5 v = (v % 5 == 0) := by
  by_cases h : (5 : Int) ∣ v
  · rw [(div5_iff_dvd v).mpr h]
    exact (beq_iff_eq.mpr (Int.emod_eq_zero_of_dvd h)).symm
  · have h1 : div5 v = false := by
      rcases hb : div5 v with _ | _
      · rfl
      · exact absurd ((div5_iff_dvd v).mp hb) h
    have h2 : (v % 5 == 0) = false := by
      rcases hb : (v % 5 == 0) with _ | _
      · rfl
      · exact absurd (Int.dvd_of_emod_eq_zero (beq_iff_eq.mp hb)) h
    rw [h1, h2]

/-- Full characterisation of the linear scan in terms of `countP` and a
`max`-fold over the multiples of 5. -/
theorem linearExecution_char (data : List Int) :
    linearExecution data = (data.countP div5, (data.filter div5).foldl max INT_MIN) := by
  unfold linearExecution
  rw [foldl_scanStep_char]
  simp

/-- A `max`-fold is either its seed or an element of the list. -/
theorem foldl_max_mem (l : List Int) : ∀ a : Int, l.foldl max a = a ∨ l.foldl max a ∈ l := by
  induction l with
  | nil => intro a; left; rfl
  | cons v rest ih =>
    intro a
    rcases ih (max a v) with h | h
    · rcases max_choice a v with h2 | h2
      · left; rw [List.foldl_cons, h, h2]
      · right; rw [List.foldl_cons, h, h2]; exact List.mem_cons_self v rest
    · right; exact List.mem_cons_of_mem v h

/-- A `max`-fold is bounded by any common upper bound of the seed and the
elements. -/
theorem foldl_max_le (l : List Int) : ∀ a b : Int, a ≤ b → (∀ x ∈ l, x ≤ b) →
    l.foldl max a ≤ b := by
  induction l with
  | nil => intro a b ha _; exact ha
  | cons v rest ih =>
    intro a b ha hl
    exact ih (max a v) b (max_le ha (hl v (List.mem_cons_self v rest)))
      (fun x hx => hl x (List.mem_cons_of_mem v hx))

/-- On datasets of genuine 32-bit values the code's scan meets the
spec-side aggregate. -/
theorem linearExecution_eq_specAggregate (data : List Int)
    (h32 : ∀ v ∈ data, INT_MIN ≤ v) :
    linearExecution data = specAggregate data := by
  rw [linearExecution_char]
  unfold specAggregate
  have hfilter : data.filter div5 = data.filter (fun v => v % 5 == 0) :=
    List.filter_congr (fun x _ => div5_eq_emod x)
  rw [List.countP_eq_length_filter, hfilter]
  rcases hq : data.filter (fun v => v % 5 == 0) with _ | ⟨a, as⟩
  · simp
  · have ha : a ∈ data := by
      have : a ∈ data.filter (fun v => v % 5 == 0) := by
        rw [hq]; exact List.mem_cons_self a as
      exact (List.mem_filter.mp this).1
    have hmin : INT_MIN ≤ a := h32 a ha
    refine Prod.ext rfl ?_
    show (a :: as).foldl max INT_MIN = _
    rw [List.foldl_cons, max_eq_right hmin]
    rfl

theorem casInv_init {n : Nat} (lm : Fin n → Int) : CasInv lm (casInit n) := by
  refine ⟨le_rfl, Or.inl rfl, ?_, ?_⟩
  · intro i cur h
    simp [casInit] at h
  · intro i h
    simp [casInit] at h

theorem casInv_step {n : Nat} (lm : Fin n → Int) (s s' : CasState n)
    (hInv : CasInv lm s) (hstep : CasStep lm s s') : CasInv lm s' := by
  obtain ⟨h1, h2, h3, h4⟩ := hInv
  cases hstep with
  | load i hpc =>
    refine ⟨h1, h2, ?_, ?_⟩
    · intro i' cur h
      dsimp only at h ⊢
      by_cases hii : i' = i
      · subst hii
        rw [Function.update_same] at h
        cases h
        exact ⟨h1, le_rfl⟩
      · rw [Function.update_noteq hii] at h
        exact h3 i' cur h
    · intro i' h
      dsimp only at h ⊢
      by_cases hii : i' = i
      · subst hii; rw [Function.update_same] at h; cases h
      · rw [Function.update_noteq hii] at h
        exact h4 i' h
  | exitLe i cur hpc hle =>
    refine ⟨h1, h2, ?_, ?_⟩
    · intro i' cur' h
      dsimp only at h ⊢
      by_cases hii : i' = i
      · subst hii; rw [Function.update_same] at h; cases h
      · rw [Function.update_noteq hii] at h
        exact h3 i' cur' h
    · intro i' h
      dsimp only at h ⊢
      by_cases hii : i' = i
      · subst hii
        exact le_trans hle (h3 _ cur hpc).2
      · rw [Function.update_noteq hii] at h
        exact h4 i' h
  | casOk i cur hpc hlt hsh =>
    have hshle : s.sharedMax ≤ lm i := by rw [hsh]; exact le_of_lt hlt
    refine ⟨le_trans h1 hshle, Or.inr ⟨i, rfl⟩, ?_, ?_⟩
    · intro i' cur' h
      dsimp only at h ⊢
      by_cases hii : i' = i
      · subst hii; rw [Function.update_same] at h; cases h
      · rw [Function.update_noteq hii] at h
        obtain ⟨ha, hb⟩ := h3 i' cur' h
        exact ⟨ha, le_trans hb hshle⟩
    · intro i' h
      dsimp only at h ⊢
      by_cases hii : i' = i
      · subst hii; exact le_rfl
      · rw [Function.update_noteq hii] at h
        exact le_trans (h4 i' h) hshle
  | casFail i cur hpc hlt hne =>
    refine ⟨h1, h2, ?_, ?_⟩
    · intro i' cur' h
      dsimp only at h ⊢
      by_cases hii : i' = i
      · subst hii; rw [Function.update_same] at h; cases h
      · rw [Function.update_noteq hii] at h
        exact h3 i' cur' h
    · intro i' h
      dsimp only at h ⊢
      by_cases hii : i' = i
      · subst hii; rw [Function.update_same] at h; cases h
      · rw [Function.update_noteq hii] at h
        exact h4 i' h

theorem candAbove_antitone {n : Nat} (lm : Fin n → Int) {x y : Int} (h : x ≤ y) :
    candAbove lm y ≤ candAbove lm x := by
  apply Finset.card_le_card
  intro j hj
  rw [Finset.mem_filter] at hj ⊢
  exact ⟨hj.1, lt_of_le_of_lt h hj.2⟩

theorem candAbove_lt {n : Nat} (lm : Fin n → Int) {cur sh : Int} (j : Fin n)
    (hcs : cur < sh) (hj : lm j = sh) : candAbove lm sh < candAbove lm cur := by
  apply Finset.card_lt_card
  constructor
  · intro j' hj'
    rw [Finset.mem_filter] at hj' ⊢
    exact ⟨hj'.1, lt_trans hcs hj'.2⟩
  · intro hsub
    have hjmem : j ∈ Finset.univ.filter (fun j' => cur < lm j') := by
      rw [Finset.mem_filter]
      exact ⟨Finset.mem_univ j, by rw [hj]; exact hcs⟩
    have := hsub hjmem
    rw [Finset.mem_filter, hj] at this
    exact absurd this.2 (lt_irrefl sh)

theorem candAbove_le {n : Nat} (lm : Fin n → Int) (x : Int) : candAbove lm x ≤ n := by
  calc candAbove lm x ≤ Finset.univ.card := Finset.card_filter_le _ _
    _ = n := by rw [Finset.card_univ, Fintype.card_fin]

/-- Each step of the CAS merge phase strictly decreases the global
progress measure (in states satisfying the invariant): the loop makes
progress in every interleaving. -/
theorem casMeasure_decreases {n : Nat} (lm : Fin n → Int) (s s' : CasState n)
    (hInv : CasInv lm s) (hstep : CasStep lm s s') :
    casMeasure lm s' < casMeasure lm s := by
  obtain ⟨h1, h2, h3, h4⟩ := hInv
  cases hstep with
  | load i hpc =>
    apply Finset.sum_lt_sum
    · intro j _
      dsimp only
      by_cases hji : j = i
      · subst hji
        rw [Function.update_same, hpc]
        simp [pcMeasure]
      · rw [Function.update_noteq hji]
    · refine ⟨i, Finset.mem_univ i, ?_⟩
      dsimp only
      rw [Function.update_same, hpc]
      simp [pcMeasure]
  | exitLe i cur hpc hle =>
    apply Finset.sum_lt_sum
    · intro j _
      dsimp only
      by_cases hji : j = i
      · subst hji
        rw [Function.update_same, hpc]
        simp [pcMeasure]
      · rw [Function.update_noteq hji]
    · refine ⟨i, Finset.mem_univ i, ?_⟩
      dsimp only
      rw [Function.update_same, hpc]
      simp [pcMeasure]
  | casOk i cur hpc hlt hsh =>
    have hshgrow : s.sharedMax ≤ lm i := by rw [hsh]; exact le_of_lt hlt
    apply Finset.sum_lt_sum
    · intro j _
      dsimp only
      by_cases hji : j = i
      · subst hji
        rw [Function.update_same]
        simp [pcMeasure]
      · rw [Function.update_noteq hji]
        rcases hj : s.pc j with _ | cur' | _
        · simp only [pcMeasure]
          have := candAbove_antitone lm hshgrow
          omega
        · simp [pcMeasure]
        · simp [pcMeasure]
    · refine ⟨i, Finset.mem_univ i, ?_⟩
      dsimp only
      rw [Function.update_same, hpc]
      simp [pcMeasure]
  | casFail i cur hpc hlt hne =>
    have hcs : cur < s.sharedMax :=
      lt_of_le_of_ne (h3 i cur hpc).2 (fun h => hne h.symm)
    have hmin : INT_MIN ≤ cur := (h3 i cur hpc).1
    have hwit : ∃ j, lm j = s.sharedMax := by
      rcases h2 with h | h
      · exfalso
        rw [h] at hcs
        exact absurd (lt_of_le_of_lt hmin hcs) (lt_irrefl INT_MIN)
      · exact h
    obtain ⟨j, hj⟩ := hwit
    have hcand : candAbove lm s.sharedMax < candAbove lm cur := candAbove_lt lm j hcs hj
    apply Finset.sum_lt_sum
    · intro j' _
      dsimp only
      by_cases hji : j' = i
      · subst hji
        rw [Function.update_same, hpc]
        simp only [pcMeasure]
        omega
      · rw [Function.update_noteq hji]
    · refine ⟨i, Finset.mem_univ i, ?_⟩
      dsimp only
      rw [Function.update_same, hpc]
      simp only [pcMeasure]
      omega

/-- The invariant holds along every step chain out of a state satisfying
it. -/
theorem casInv_chain {n : Nat} (lm : Fin n → Int) (f : ℕ → CasState n) (k : ℕ)
    (h0 : CasInv lm (f 0)) (hstep : ∀ j, j < k → CasStep lm (f j) (f (j + 1))) :
    ∀ j, j ≤ k → CasInv lm (f j) := by
  intro j
  induction j with
  | zero => intro _; exact h0
  | succ j ih =>
    intro hj
    exact casInv_step lm (f j) (f (j + 1)) (ih (by omega)) (hstep j (by omega))

/-- Along a step chain the measure decreases by at least one per step. -/
theorem casMeasure_chain {n : Nat} (lm : Fin n → Int) (f : ℕ → CasState n) (k : ℕ)
    (h0 : CasInv lm (f 0)) (hstep : ∀ j, j < k → CasStep lm (f j) (f (j + 1))) :
    casMeasure lm (f k) + k ≤ casMeasure lm (f 0) := by
  induction k with
  | zero => omega
  | succ k ih =>
    have hk := ih (fun j hj => hstep j (by omega))
    have hdec : casMeasure lm (f (k + 1)) < casMeasure lm (f k) :=
      casMeasure_decreases lm (f k) (f (k + 1))
        (casInv_chain lm f k h0 (fun j hj => hstep j (by omega)) k le_rfl)
        (hstep k (by omega))
    omega

/-- The initial measure is at most quadratic in the worker count. -/
theorem casMeasure_init_le (n : Nat) (lm : Fin n → Int) :
    casMeasure lm (casInit n) ≤ 2 * n * (1 + n) := by
  unfold casMeasure casInit
  calc (∑ _i : Fin n, pcMeasure lm INT_MIN CasPc.start)
      = n * (2 + 2 * candAbove lm INT_MIN) := by
        rw [Finset.sum_const, Finset.card_univ, Fintype.card_fin, smul_eq_mul]
        rfl
    _ ≤ n * (2 + 2 * n) :=
        Nat.mul_le_mul_left n (by have := candAbove_le lm INT_MIN; omega)
    _ = 2 * n * (1 + n) := by ring

/-- An element of the list is a lower bound of a `max`-fold over it. -/
theorem elem_le_foldl_max (l : List Int) : ∀ (x b : Int), x ∈ l → x ≤ l.foldl max b := by
  induction l with
  | nil => intro x b hx; cases hx
  | cons v rest ih =>
    intro x b hx
    rw [List.foldl_cons]
    rcases List.mem_cons.mp hx with h | h
    · subst h
      exact le_trans (le_max_right b x) (le_foldl_max rest (max b x))
    · exact ih x (max b v) h

/-- The invariant holds in every state reachable from the initial one. -/
theorem casInv_reachable {n : Nat} (lm : Fin n → Int) (s : CasState n)
    (hreach : Relation.ReflTransGen (CasStep lm) (casInit n) s) : CasInv lm s := by
  induction hreach with
  | refl => exact casInv_init lm
  | tail hr hstep ih => exact casInv_step lm _ _ ih hstep

/-- In a reachable all-done state the shared max is exactly the `max`-fold
of all the workers' local maxima over the initial `INT_MIN`. -/
theorem casFinal_sharedMax {n : Nat} (lm : Fin n → Int) (s : CasState n)
    (hreach : Relation.ReflTransGen (CasStep lm) (casInit n) s)
    (hdone : ∀ i, s.pc i = CasPc.done) :
    s.sharedMax = (List.ofFn lm).foldl max INT_MIN := by
  have hInv : CasInv lm s := casInv_reachable lm s hreach
  have hub : s.sharedMax ≤ (List.ofFn lm).foldl max INT_MIN := by
    rcases hInv.2.1 with h | ⟨j, hj⟩
    · rw [h]; exact le_foldl_max _ _
    · rw [← hj]
      exact elem_le_foldl_max (List.ofFn lm) (lm j) INT_MIN
        ((List.mem_ofFn lm (lm j)).mpr ⟨j, rfl⟩)
  have hlb : (List.ofFn lm).foldl max INT_MIN ≤ s.sharedMax := by
    apply foldl_max_le _ _ _ hInv.1
    intro x hx
    rcases (List.mem_ofFn lm x).mp hx with ⟨i, hi⟩
    rw [← hi]
    exact hInv.2.2.2 i (hdone i)
  exact le_antisymm hub hlb

/-- The max component of the CAS fold is a `max`-fold of the workers'
local maxima. -/
theorem foldl_cas_snd (data : List Int) (rs : List (Nat × Nat)) :
    ∀ acc : Nat × Int,
      ((rs.foldl (fun shared r => processSectionWithCAS r.1 r.2 data shared) acc).2)
        = (rs.map (fun r => (sectionScan data r.1 r.2).2)).foldl max acc.2 := by
  induction rs with
  | nil => intro acc; rfl
  | cons r rest ih =>
    intro acc
    rw [List.foldl_cons, List.map_cons, List.foldl_cons, ih]
    congr 1
    show (processSectionWithCAS r.1 r.2 data acc).2 = max acc.2 _
    simp only [processSectionWithCAS]
    exact if_gt_eq_max _ _

theorem ofFn_casLocalMax (data : List Int) (T : Nat) :
    List.ofFn (fun i : Fin T => casLocalMax data T i.val)
      = (List.range T).map (fun t => casLocalMax data T t) := by
  apply List.ext_getElem
  · simp
  · intro k h1 h2
    simp

/-- The max returned by `parallelWithCAS` is the `max`-fold of the
workers' local maxima over the initial `INT_MIN`. -/
theorem parallelWithCAS_snd (data : List Int) (T : Nat) (hT : 1 ≤ T)
    (p : Nat × Int) (hp : parallelWithCAS data T = some p) :
    p.2 = (List.ofFn (fun i : Fin T => casLocalMax data T i.val)).foldl max INT_MIN := by
  unfold parallelWithCAS at hp
  rw [if_neg (by omega : ¬ T = 0)] at hp
  injection hp with hp
  rw [← hp, foldl_cas_snd, ofFn_casLocalMax, List.map_map]
  rfl

/-- The locked merge of `processSectionWithMutex` is commutative on the
local results. -/
theorem mergeStep_comm (a b : Nat × Int) : mergeStep a b = mergeStep b a := by
  unfold mergeStep
  rw [if_gt_eq_max, if_gt_eq_max]
  exact Prod.ext (Nat.add_comm a.1 b.1) (max_comm a.2 b.2)

/-- The locked merge is associative. -/
theorem mergeStep_assoc (a b c : Nat × Int) :
    mergeStep (mergeStep a b) c = mergeStep a (mergeStep b c) := by
  unfold mergeStep
  rw [if_gt_eq_max, if_gt_eq_max, if_gt_eq_max, if_gt_eq_max]
  exact Prod.ext (Nat.add_assoc a.1 b.1 c.1) (max_assoc a.2 b.2 c.2)

/-- Folding the locked merge over the workers' local results is invariant
under the order in which the workers reach the critical section. -/
theorem foldl_mergeStep_perm (rs rs' : List (Nat × Int)) (hperm : rs.Perm rs')
    (init : Nat × Int) :
    rs.foldl mergeStep init = rs'.foldl mergeStep init := by
  refine hperm.foldl_eq' ?_ init
  intro x _ y _ z
  rw [mergeStep_assoc, mergeStep_assoc, mergeStep_comm x y]

/-- The linear scan is invariant under permutation of the dataset. -/
theorem linearExecution_perm (l l' : List Int) (hperm : l.Perm l') :
    linearExecution l = linearExecution l' := by
  rw [linearExecution_char, linearExecution_char, hperm.countP_eq]
  refine Prod.ext rfl ?_
  show (l.filter div5).foldl max INT_MIN = (l'.filter div5).foldl max INT_MIN
  refine (hperm.filter div5).foldl_eq' ?_ INT_MIN
  intro x _ y _ z
  rw [max_assoc, max_assoc, max_comm x y]

/-- Every index of the dataset lies in exactly one partition. -/
theorem partitionRange_exists_unique (L T : Nat) (hT : 1 ≤ T) (i : Nat) (hi : i < L) :
    ∃ t, (t < T ∧ (partitionRange L T t).1 ≤ i ∧ i < (partitionRange L T t).2)
      ∧ ∀ t', (t' < T ∧ (partitionRange L T t').1 ≤ i ∧ i < (partitionRange L T t').2)
          → t' = t := by
  by_cases hc0 : L / T = 0
  · refine ⟨T - 1, ⟨by omega, ?_, ?_⟩, ?_⟩
    · simp only [partitionRange, hc0, Nat.mul_zero]
      omega
    · simp only [partitionRange, if_pos rfl]
      exact hi
    · rintro t' ⟨h1, h2, h3⟩
      by_contra hne
      rw [partitionRange, if_neg hne, hc0] at h3
      omega
  · have hcpos : 0 < L / T := Nat.pos_of_ne_zero hc0
    by_cases hbig : i < (T - 1) * (L / T)
    · have htd : i / (L / T) < T - 1 := by
        rw [Nat.div_lt_iff_lt_mul hcpos]
        exact hbig
      refine ⟨i / (L / T), ⟨by omega, ?_, ?_⟩, ?_⟩
      · simp only [partitionRange]
        exact Nat.div_mul_le_self i (L / T)
      · have hdm := Nat.div_add_mod i (L / T)
        have hr : i % (L / T) < L / T := Nat.mod_lt i hcpos
        rw [Nat.mul_comm] at hdm
        simp only [partitionRange, if_neg (Nat.ne_of_lt htd)]
        generalize hq : i / (L / T) * (L / T) = q at hdm ⊢
        generalize hrr : i % (L / T) = r at hdm hr
        generalize hcc : L / T = c at hr ⊢
        omega
      · rintro t' ⟨h1, h2, h3⟩
        simp only [partitionRange] at h2 h3
        by_cases hlast : t' = T - 1
        · exfalso
          rw [hlast] at h2
          omega
        · rw [if_neg hlast] at h3
          have hle : t' ≤ i / (L / T) :=
            (Nat.le_div_iff_mul_le hcpos).mpr h2
          have hlt : i / (L / T) < t' + 1 := by
            rw [Nat.div_lt_iff_lt_mul hcpos, Nat.succ_mul]
            exact h3
          omega
    · refine ⟨T - 1, ⟨by omega, ?_, ?_⟩, ?_⟩
      · simp only [partitionRange]
        exact Nat.le_of_not_lt hbig
      · simp only [partitionRange, if_pos rfl]
        exact hi
      · rintro t' ⟨h1, h2, h3⟩
        by_contra hne
        simp only [partitionRange, if_neg hne] at h3
        have hend : (t' + 1) * (L / T) ≤ (T - 1) * (L / T) :=
          Nat.mul_le_mul_right _ (by omega)
        rw [Nat.succ_mul] at hend
        exact absurd (lt_of_lt_of_le h3 (le_trans hend (Nat.le_of_not_lt hbig)))
          (lt_irrefl i)

theorem digitChar_ne_tab (d : Nat) : digitChar d ≠ '\t' := by
  unfold digitChar
  have h : d % 10 < 10 := Nat.mod_lt d (by omega)
  generalize d % 10 = r at h ⊢
  interval_cases r <;> decide

theorem digitChar_ne_dot (d : Nat) : digitChar d ≠ '.' := by
  unfold digitChar
  have h : d % 10 < 10 := Nat.mod_lt d (by omega)
  generalize d % 10 = r at h ⊢
  interval_cases r <;> decide

theorem natCharsAux_ne_tab : ∀ (fuel n : Nat), ∀ c ∈ natCharsAux fuel n, c ≠ '\t' := by
  intro fuel
  induction fuel with
  | zero => intro n c hc; cases hc
  | succ fuel ih =>
    intro n c hc
    rw [natCharsAux] at hc
    by_cases h : n < 10
    · rw [if_pos h] at hc
      rw [List.mem_singleton] at hc
      subst hc
      exact digitChar_ne_tab n
    · rw [if_neg h] at hc
      rcases List.mem_append.mp hc with h1 | h1
      · exact ih (n / 10) c h1
      · rw [List.mem_singleton] at h1
        subst h1
        exact digitChar_ne_tab (n % 10)

theorem natChars_ne_tab (n : Nat) : ∀ c ∈ natChars n, c ≠ '\t' :=
  natCharsAux_ne_tab (n + 1) n

theorem natCharsAux_ne_dot : ∀ (fuel n : Nat), ∀ c ∈ natCharsAux fuel n, c ≠ '.' := by
  intro fuel
  induction fuel with
  | zero => intro n c hc; cases hc
  | succ fuel ih =>
    intro n c hc
    rw [natCharsAux] at hc
    by_cases h : n < 10
    · rw [if_pos h] at hc
      rw [List.mem_singleton] at hc
      subst hc
      exact digitChar_ne_dot n
    · rw [if_neg h] at hc
      rcases List.mem_append.mp hc with h1 | h1
      · exact ih (n / 10) c h1
      · rw [List.mem_singleton] at h1
        subst h1
        exact digitChar_ne_dot (n % 10)

theorem natCharsAux_ne_nil (fuel n : Nat) : natCharsAux (fuel + 1) n ≠ [] := by
  rw [natCharsAux]
  by_cases h : n < 10
  · simp [h]
  · simp [h]

theorem natChars_ne_nil (n : Nat) : natChars n ≠ [] := natCharsAux_ne_nil n n

theorem intChars_ne_tab (v : Int) : ∀ c ∈ intChars v, c ≠ '\t' := by
  intro c hc
  unfold intChars at hc
  by_cases h : v < 0
  · rw [if_pos h] at hc
    rcases List.mem_cons.mp hc with h1 | h1
    · subst h1; decide
    · exact natChars_ne_tab v.natAbs c h1
  · rw [if_neg h] at hc
    exact natChars_ne_tab v.natAbs c hc

theorem pad6_ne_tab (r : Nat) : ∀ c ∈ pad6 r, c ≠ '\t' := by
  intro c hc
  rcases List.mem_append.mp hc with h1 | h1
  · rw [List.eq_of_mem_replicate h1]; decide
  · exact natChars_ne_tab r c h1

theorem fixed6Chars_ne_tab (micros : Nat) : ∀ c ∈ fixed6Chars micros, c ≠ '\t' := by
  intro c hc
  rcases List.mem_append.mp hc with h1 | h1
  · exact natChars_ne_tab _ c h1
  · rcases List.mem_cons.mp h1 with h2 | h2
    · subst h2; decide
    · exact pad6_ne_tab _ c h2

theorem threadsField_ne_tab (threads : Option Nat) : ∀ c ∈ threadsField threads, c ≠ '\t' := by
  intro c hc
  cases threads with
  | none =>
    rw [show threadsField none = ['-'] from rfl, List.mem_singleton] at hc
    subst hc
    decide
  | some th => exact natChars_ne_tab th c hc

/-- Function `natCharsAux` does not depend on the fuel once it exceeds `n`. -/
theorem natCharsAux_fuel_irrel : ∀ (n f1 f2 : Nat), n < f1 → n < f2 →
    natCharsAux f1 n = natCharsAux f2 n := by
  intro n
  induction n using Nat.strong_induction_on with
  | _ n ih =>
    intro f1 f2 h1 h2
    cases f1 with
    | zero => omega
    | succ a =>
      cases f2 with
      | zero => omega
      | succ b =>
        rw [natCharsAux, natCharsAux]
        by_cases h : n < 10
        · rw [if_pos h, if_pos h]
        · rw [if_neg h, if_neg h]
          have hd : n / 10 < n := Nat.div_lt_self (by omega) (by omega)
          rw [ih (n / 10) hd a b (by omega) (by omega)]

/-- A number below `10 ^ k` prints with at most `k` digits. -/
theorem natChars_length_le : ∀ (k n : Nat), 1 ≤ k → n < 10 ^ k →
    (natChars n).length ≤ k := by
  intro k
  induction k with
  | zero => intro n h1 _; omega
  | succ k ih =>
    intro n _ h2
    unfold natChars
    rw [natCharsAux]
    by_cases h : n < 10
    · rw [if_pos h]
      simp
    · rw [if_neg h]
      have hk1 : 1 ≤ k := by
        by_contra hk
        have hk0 : k = 0 := by omega
        rw [hk0] at h2
        simp at h2
        omega
      have hdiv : n / 10 < 10 ^ k := by
        rw [Nat.div_lt_iff_lt_mul (by omega)]
        calc n < 10 ^ (k + 1) := h2
          _ = 10 ^ k * 10 := by rw [Nat.pow_succ]
      have heq : natCharsAux n (n / 10) = natChars (n / 10) := by
        apply natCharsAux_fuel_irrel
        · exact Nat.div_lt_self (by omega) (by omega)
        · omega
      rw [heq, List.length_append]
      have := ih (n / 10) hk1 hdiv
      simp
      omega

/-- Six fraction digits exactly. -/
theorem pad6_length (r : Nat) (h : r < 1000000) : (pad6 r).length = 6 := by
  have hl : (natChars r).length ≤ 6 := by
    apply natChars_length_le 6 r (by omega)
    norm_num
    omega
  unfold pad6
  rw [List.length_append, List.length_replicate]
  omega

theorem splitTabs_ne_nil (cs : List Char) : splitTabs cs ≠ [] := by
  induction cs with
  | nil => simp [splitTabs]
  | cons c cs ih =>
    rw [splitTabs]
    by_cases h : c = '\t'
    · simp [h]
    · rw [if_neg h]
      rcases hs : splitTabs cs with _ | ⟨f, rest⟩
      · simp
      · simp

/-- Splitting an appended tab-free prefix extends the first field. -/
theorem splitTabs_append_field (a : List Char) (hnt : ∀ c ∈ a, c ≠ '\t') :
    ∀ b, splitTabs (a ++ b) = (a ++ (splitTabs b).headD []) :: (splitTabs b).tail := by
  induction a with
  | nil =>
    intro b
    rcases hs : splitTabs b with _ | ⟨f, rest⟩
    · exact absurd hs (splitTabs_ne_nil b)
    · simp [hs]
  | cons c a ih =>
    intro b
    have hc : c ≠ '\t' := hnt c (List.mem_cons_self c a)
    rw [List.cons_append, splitTabs, if_neg hc,
      ih (fun x hx => hnt x (List.mem_cons_of_mem c hx)) b]
    simp

/-- A tab-free field followed by a tab is split off whole. -/
theorem splitTabs_field (a : List Char) (hnt : ∀ c ∈ a, c ≠ '\t')
    (rest : List Char) :
    splitTabs (a ++ '\t' :: rest) = a :: splitTabs rest := by
  rw [splitTabs_append_field a hnt]
  have h : splitTabs ('\t' :: rest) = [] :: splitTabs rest := by
    rw [splitTabs, if_pos rfl]
  rw [h]
  simp

/-- A tab-free string is one single field. -/
theorem splitTabs_whole (a : List Char) (hnt : ∀ c ∈ a, c ≠ '\t') :
    splitTabs a = [a] := by
  have h := splitTabs_append_field a hnt []
  simpa [splitTabs] using h

/-- C1: for every fixed dataset and every thread count `T ≥ 1` the three
reducers agree: `parallelWithMutex` and `parallelWithCAS` both return
exactly the `(count, maxValue)` pair of `linearExecution`. -/
theorem claim_C1 (data : List Int) (T : Nat) (hT : 1 ≤ T) :
    parallelWithMutex data T = some (linearExecution data)
    ∧ parallelWithCAS data T = some (linearExecution data) :=
  ⟨parallelWithMutex_eq_linear data T hT, parallelWithCAS_eq_linear data T hT⟩

theorem claim_C1_witness :
    parallelWithMutex [5, 3, 10, 22, 25, 7] 4 = some (linearExecution [5, 3, 10, 22, 25, 7])
    ∧ parallelWithCAS [5, 3, 10, 22, 25, 7] 4 = some (linearExecution [5, 3, 10, 22, 25, 7]) :=
  claim_C1 [5, 3, 10, 22, 25, 7] 4 (by decide)

/-- C2: on datasets of 32-bit values, `linearExecution` returns the number
of elements divisible by 5 and the maximum such element, with the
`INT_MIN` sentinel when there is none (the spec-side `specAggregate`). -/
theorem claim_C2 (data : List Int)
    (h32 : ∀ v ∈ data, INT_MIN ≤ v ∧ v ≤ INT_MAX) :
    linearExecution data = specAggregate data :=
  linearExecution_eq_specAggregate data (fun v hv => (h32 v hv).1)

theorem claim_C2_witness :
    linearExecution [5, 3, 10, 22, 25, 7] = specAggregate [5, 3, 10, 22, 25, 7] :=
  claim_C2 [5, 3, 10, 22, 25, 7] (by decide)

/-- C3: for every length `L` and thread count `T ≥ 1`, the `T` partitions
are contiguous, the last one ends at `L` whatever the division remainder,
each stays inside `[0, L)`, and every index below `L` lies in exactly one
partition. -/
theorem claim_C3 (L T : Nat) (hT : 1 ≤ T) :
    (partitionRange L T 0).1 = 0
    ∧ (∀ t, t + 1 < T → (partitionRange L T t).2 = (partitionRange L T (t + 1)).1)
    ∧ (partitionRange L T (T - 1)).2 = L
    ∧ (∀ t, t < T → (partitionRange L T t).1 ≤ (partitionRange L T t).2
        ∧ (partitionRange L T t).2 ≤ L)
    ∧ (∀ i, i < L →
        ∃ t, (t < T ∧ (partitionRange L T t).1 ≤ i ∧ i < (partitionRange L T t).2)
          ∧ ∀ t', (t' < T ∧ (partitionRange L T t').1 ≤ i ∧ i < (partitionRange L T t').2)
              → t' = t) := by
  refine ⟨by simp [partitionRange], ?_, by simp [partitionRange], ?_, ?_⟩
  · intro t ht
    simp only [partitionRange, if_neg (show ¬ t = T - 1 by omega)]
    exact (Nat.succ_mul t (L / T)).symm
  · intro t ht
    constructor
    · by_cases h : t = T - 1
      · subst h
        simp only [partitionRange, if_pos rfl]
        calc (T - 1) * (L / T) ≤ T * (L / T) := Nat.mul_le_mul_right _ (by omega)
          _ ≤ L := Nat.mul_div_le L T
      · simp only [partitionRange, if_neg h]
        exact Nat.le_add_right _ _
    · by_cases h : t = T - 1
      · subst h
        simp only [partitionRange, if_pos rfl]
        exact le_rfl
      · simp only [partitionRange, if_neg h]
        calc t * (L / T) + L / T = (t + 1) * (L / T) := (Nat.succ_mul t (L / T)).symm
          _ ≤ T * (L / T) := Nat.mul_le_mul_right _ (by omega)
          _ ≤ L := Nat.mul_div_le L T
  · intro i hi
    exact partitionRange_exists_unique L T hT i hi

theorem claim_C3_witness :
    (partitionRange 7 3 0).1 = 0
    ∧ (∀ t, t + 1 < 3 → (partitionRange 7 3 t).2 = (partitionRange 7 3 (t + 1)).1)
    ∧ (partitionRange 7 3 (3 - 1)).2 = 7
    ∧ (∀ t, t < 3 → (partitionRange 7 3 t).1 ≤ (partitionRange 7 3 t).2
        ∧ (partitionRange 7 3 t).2 ≤ 7)
    ∧ (∀ i, i < 7 →
        ∃ t, (t < 3 ∧ (partitionRange 7 3 t).1 ≤ i ∧ i < (partitionRange 7 3 t).2)
          ∧ ∀ t', (t' < 3 ∧ (partitionRange 7 3 t').1 ≤ i ∧ i < (partitionRange 7 3 t').2)
              → t' = t) :=
  claim_C3 7 3 (by decide)

/-- C6: on the empty dataset every reducer returns `(0, INT_MIN)` for every
thread count `T ≥ 1`, every partition is the empty range `(0, 0)`, and each
worker's local scan of its partition performs no comparison (it returns the
untouched initial accumulator). -/
theorem claim_C6 (T : Nat) (hT : 1 ≤ T) :
    linearExecution [] = (0, INT_MIN)
    ∧ parallelWithMutex [] T = some (0, INT_MIN)
    ∧ parallelWithCAS [] T = some (0, INT_MIN)
    ∧ (∀ t, t < T → partitionRange 0 T t = (0, 0))
    ∧ (∀ t, t < T →
        sectionScan [] (partitionRange 0 T t).1 (partitionRange 0 T t).2 = (0, INT_MIN)) := by
  have hpr : ∀ t, partitionRange 0 T t = (0, 0) := by
    intro t
    unfold partitionRange
    rw [Nat.zero_div, Nat.mul_zero]
    by_cases h : t = T - 1
    · rw [if_pos h]
    · rw [if_neg h]
  refine ⟨rfl, ?_, ?_, fun t _ => hpr t, fun t _ => ?_⟩
  · rw [parallelWithMutex_eq_linear [] T hT]
    rfl
  · rw [parallelWithCAS_eq_linear [] T hT]
    rfl
  · rw [hpr t]
    rfl

theorem claim_C6_witness :
    linearExecution [] = (0, INT_MIN)
    ∧ parallelWithMutex [] 3 = some (0, INT_MIN)
    ∧ parallelWithCAS [] 3 = some (0, INT_MIN)
    ∧ (∀ t, t < 3 → partitionRange 0 3 t = (0, 0))
    ∧ (∀ t, t < 3 →
        sectionScan [] (partitionRange 0 3 t).1 (partitionRange 0 3 t).2 = (0, INT_MIN)) :=
  claim_C6 3 (by decide)

/-- C7: the aggregate is order-independent: the scan gives the same result
on every permutation of the dataset, and the per-worker merge is
commutative and associative, so merging the local results in any order
yields the same accumulator. -/
theorem claim_C7 :
    (∀ (l l' : List Int), l.Perm l' → linearExecution l = linearExecution l')
    ∧ (∀ a b : Nat × Int, mergeStep a b = mergeStep b a)
    ∧ (∀ a b c : Nat × Int, mergeStep (mergeStep a b) c = mergeStep a (mergeStep b c))
    ∧ (∀ (rs rs' : List (Nat × Int)), rs.Perm rs' → ∀ init : Nat × Int,
        rs.foldl mergeStep init = rs'.foldl mergeStep init) :=
  ⟨linearExecution_perm, mergeStep_comm, mergeStep_assoc,
    fun rs rs' h init => foldl_mergeStep_perm rs rs' h init⟩

theorem claim_C7_witness :
    linearExecution [5, 10, 3] = linearExecution [3, 5, 10]
    ∧ mergeStep (2, 10) (1, 25) = mergeStep (1, 25) (2, 10)
    ∧ mergeStep (mergeStep (1, 5) (2, 10)) (3, 15)
        = mergeStep (1, 5) (mergeStep (2, 10) (3, 15))
    ∧ [((1 : Nat), (5 : Int)), (2, 10)].foldl mergeStep (0, INT_MIN)
        = [((2 : Nat), (10 : Int)), (1, 5)].foldl mergeStep (0, INT_MIN) :=
  ⟨claim_C7.1 [5, 10, 3] [3, 5, 10] (by decide),
    claim_C7.2.1 (2, 10) (1, 25),
    claim_C7.2.2.1 (1, 5) (2, 10) (3, 15),
    claim_C7.2.2.2 [(1, 5), (2, 10)] [(2, 10), (1, 5)] (by decide) (0, INT_MIN)⟩

/-- C9: with `T ≥ 1` both parallel reducers are fully defined — the
division `data.size() / numThreads` and all index computations are total —
while `T = 0` hits the division-by-zero error branch and has no result. -/
theorem claim_C9 (data : List Int) (T : Nat) (hT : 1 ≤ T) :
    (parallelWithMutex data T).isSome = true
    ∧ (parallelWithCAS data T).isSome = true
    ∧ parallelWithMutex data 0 = none
    ∧ parallelWithCAS data 0 = none := by
  refine ⟨?_, ?_, rfl, rfl⟩
  · unfold parallelWithMutex
    rw [if_neg (by omega : ¬ T = 0)]
    rfl
  · unfold parallelWithCAS
    rw [if_neg (by omega : ¬ T = 0)]
    rfl

theorem claim_C9_witness :
    (parallelWithMutex [7] 1).isSome = true
    ∧ (parallelWithCAS [7] 1).isSome = true
    ∧ parallelWithMutex [7] 0 = none
    ∧ parallelWithCAS [7] 0 = none :=
  claim_C9 [7] 1 (by decide)

/-- C10: for 32-bit datasets and `T ≥ 1`, each reducer's `maxValue` is the
sentinel `INT_MIN` or an element of the dataset divisible by 5, the count
is `0` exactly when the max is the sentinel, and the sentinel itself is not
divisible by 5 (so the two cases cannot be confused). -/
theorem claim_C10 (data : List Int) (T : Nat) (hT : 1 ≤ T)
    (h32 : ∀ v ∈ data, INT_MIN ≤ v ∧ v ≤ INT_MAX)
    (r : Nat × Int)
    (hr : r = linearExecution data ∨ parallelWithMutex data T = some r
        ∨ parallelWithCAS data T = some r) :
    (r.2 = INT_MIN ∨ (r.2 ∈ data ∧ div5 r.2 = true))
    ∧ (r.1 = 0 ↔ r.2 = INT_MIN)
    ∧ div5 INT_MIN = false := by
  have hsent : div5 INT_MIN = false := by decide
  have hlin : r = linearExecution data := by
    rcases hr with h | h | h
    · exact h
    · rw [parallelWithMutex_eq_linear data T hT, Option.some_inj] at h
      exact h.symm
    · rw [parallelWithCAS_eq_linear data T hT, Option.some_inj] at h
      exact h.symm
  subst hlin
  rw [linearExecution_char]
  rcases hq : data.filter div5 with _ | ⟨a, as⟩
  · refine ⟨Or.inl rfl, ?_, hsent⟩
    show data.countP div5 = 0 ↔ List.foldl max INT_MIN [] = INT_MIN
    simp [List.countP_eq_length_filter, hq]
  · have ha : a ∈ data.filter div5 := by
      rw [hq]; exact List.mem_cons_self a as
    have hadata : a ∈ data := (List.mem_filter.mp ha).1
    have hamin : INT_MIN ≤ a := (h32 a hadata).1
    have hmem : List.foldl max INT_MIN (a :: as) ∈ a :: as := by
      rw [List.foldl_cons, max_eq_right hamin]
      rcases foldl_max_mem as a with h | h
      · rw [h]; exact List.mem_cons_self a as
      · exact List.mem_cons_of_mem a h
    have hmemf : List.foldl max INT_MIN (a :: as) ∈ data.filter div5 := by
      rw [hq]; exact hmem
    have hMdata : List.foldl max INT_MIN (a :: as) ∈ data :=
      (List.mem_filter.mp hmemf).1
    have hMdiv : div5 (List.foldl max INT_MIN (a :: as)) = true :=
      (List.mem_filter.mp hmemf).2
    have hMne : List.foldl max INT_MIN (a :: as) ≠ INT_MIN := by
      intro h
      rw [h, hsent] at hMdiv
      cases hMdiv
    refine ⟨Or.inr ⟨hMdata, hMdiv⟩, ?_, hsent⟩
    show data.countP div5 = 0 ↔ List.foldl max INT_MIN (a :: as) = INT_MIN
    constructor
    · intro h0
      rw [List.countP_eq_length_filter, hq] at h0
      simp at h0
    · intro h2
      exact absurd h2 hMne

theorem claim_C10_witness :
    ((linearExecution [5, 3, 10]).2 = INT_MIN
      ∨ ((linearExecution [5, 3, 10]).2 ∈ [(5 : Int), 3, 10]
          ∧ div5 (linearExecution [5, 3, 10]).2 = true))
    ∧ ((linearExecution [5, 3, 10]).1 = 0 ↔ (linearExecution [5, 3, 10]).2 = INT_MIN)
    ∧ div5 INT_MIN = false :=
  claim_C10 [5, 3, 10] 2 (by decide) (by decide) (linearExecution [5, 3, 10]) (Or.inl rfl)

/-- C4: the CAS retry loops terminate in every execution: any interleaved
run of the `T` workers from the initial state takes at most `2·T·(1+T)`
steps (the shared max only grows, the candidate values are the finitely
many local maxima, and a worker whose local max does not exceed the
observed shared max exits without attempting the exchange). -/
theorem claim_C4 (T : Nat) (lm : Fin T → Int) (f : ℕ → CasState T) (k : ℕ)
    (h0 : f 0 = casInit T) (hstep : ∀ j, j < k → CasStep lm (f j) (f (j + 1))) :
    k ≤ 2 * T * (1 + T) := by
  have hInv0 : CasInv lm (f 0) := by rw [h0]; exact casInv_init lm
  have hchain := casMeasure_chain lm f k hInv0 hstep
  have hb := casMeasure_init_le T lm
  rw [h0] at hchain
  omega

theorem claim_C4_witness : (2 : ℕ) ≤ 2 * 1 * (1 + 1) := by
  refine claim_C4 1 (fun _ => (0 : Int))
    (fun j => if j = 0 then casInit 1
      else if j = 1 then
        ⟨(casInit 1).sharedMax,
          Function.update (casInit 1).pc 0 (CasPc.loaded (casInit 1).sharedMax)⟩
      else
        ⟨(fun _ : Fin 1 => (0 : Int)) 0,
          Function.update
            (Function.update (casInit 1).pc 0 (CasPc.loaded (casInit 1).sharedMax))
            0 CasPc.done⟩)
    2 rfl ?_
  intro j hj
  interval_cases j
  · exact CasStep.load (casInit 1) 0 rfl
  · refine CasStep.casOk _ 0 (casInit 1).sharedMax ?_ ?_ rfl
    · exact Function.update_same 0 (CasPc.loaded (casInit 1).sharedMax) (casInit 1).pc
    · decide

/-- C5: however the workers of `parallelWithCAS` interleave, once all of
them are done the shared atomic max equals the max the reducer returns —
the `max`-fold of all the workers' local maxima: no CAS update is lost. -/
theorem claim_C5 (data : List Int) (T : Nat) (hT : 1 ≤ T) (s : CasState T)
    (hreach : Relation.ReflTransGen
      (CasStep (fun i : Fin T => casLocalMax data T i.val)) (casInit T) s)
    (hdone : ∀ i, s.pc i = CasPc.done)
    (p : Nat × Int) (hp : parallelWithCAS data T = some p) :
    s.sharedMax = p.2 := by
  rw [casFinal_sharedMax _ s hreach hdone, parallelWithCAS_snd data T hT p hp]

theorem claim_C5_witness : casLocalMax [5] 1 0 = (5 : Int) := by
  have step0 : CasStep (fun i : Fin 1 => casLocalMax [5] 1 i.val) (casInit 1)
      ⟨(casInit 1).sharedMax,
        Function.update (casInit 1).pc 0 (CasPc.loaded (casInit 1).sharedMax)⟩ :=
    CasStep.load (casInit 1) 0 rfl
  have step1 : CasStep (fun i : Fin 1 => casLocalMax [5] 1 i.val)
      ⟨(casInit 1).sharedMax,
        Function.update (casInit 1).pc 0 (CasPc.loaded (casInit 1).sharedMax)⟩
      ⟨(fun i : Fin 1 => casLocalMax [5] 1 i.val) 0,
        Function.update
          (Function.update (casInit 1).pc 0 (CasPc.loaded (casInit 1).sharedMax))
          0 CasPc.done⟩ := by
    refine CasStep.casOk _ 0 (casInit 1).sharedMax ?_ ?_ rfl
    · exact Function.update_same 0 (CasPc.loaded (casInit 1).sharedMax) (casInit 1).pc
    · decide
  refine claim_C5 [5] 1 (by decide)
    ⟨(fun i : Fin 1 => casLocalMax [5] 1 i.val) 0,
      Function.update
        (Function.update (casInit 1).pc 0 (CasPc.loaded (casInit 1).sharedMax))
        0 CasPc.done⟩
    (Relation.ReflTransGen.tail (Relation.ReflTransGen.tail
      Relation.ReflTransGen.refl step0) step1)
    ?_ (1, 5) (by decide)
  intro i
  rw [Fin.fin_one_eq_zero i]
  exact Function.update_same 0 CasPc.done
    (Function.update (casInit 1).pc 0 (CasPc.loaded (casInit 1).sharedMax))

theorem splitTabs_tab (x : List Char) : splitTabs ('\t' :: x) = [] :: splitTabs x := by
  rw [splitTabs, if_pos rfl]

theorem isEmpty_false_of_ne_nil (l : List Char) (h : l ≠ []) : l.isEmpty = false := by
  cases l with
  | nil => exact absurd rfl h
  | cons a as => rfl

theorem threadsField_ne_nil (threads : Option Nat) : threadsField threads ≠ [] := by
  cases threads with
  | none => simp [threadsField]
  | some th => exact natChars_ne_nil th

theorem fixed6Chars_ne_nil (micros : Nat) : fixed6Chars micros ≠ [] := by
  unfold fixed6Chars
  simp

theorem intChars_ne_nil (v : Int) : intChars v ≠ [] := by
  unfold intChars
  by_cases h : v < 0
  · simp [h]
  · rw [if_neg h]
    exact natChars_ne_nil v.natAbs

/-- C8: every data line the driver prints consists of the six fields —
input size, thread count (`-` on the linear row), strategy name, elapsed
time, count, max value — separated by runs of tab characters (two tabs
after the size, single tabs elsewhere), and the elapsed time carries
exactly 6 digits after the decimal point. -/
theorem claim_C8 (size : Nat) (threads : Option Nat) (mode : List Char)
    (micros count : Nat) (maxValue : Int)
    (hmode : mode = modeLinear ∨ mode = modeMutex ∨ mode = modeCAS) :
    (splitTabs (dataLine size threads mode micros count maxValue)).filter
        (fun f => !f.isEmpty)
      = [natChars size, threadsField threads, mode, fixed6Chars micros,
          natChars count, intChars maxValue]
    ∧ ∃ intPart frac, fixed6Chars micros = intPart ++ '.' :: frac
        ∧ (∀ c ∈ intPart, c ≠ '.') ∧ frac.length = 6 := by
  have hmodetab : ∀ c ∈ mode, c ≠ '\t' := by
    rcases hmode with h | h | h <;> subst h <;> decide
  have hmodene : mode ≠ [] := by
    rcases hmode with h | h | h <;> subst h <;> decide
  have hne : ∀ l : List Char, l ≠ [] → (!l.isEmpty) = true := by
    intro l hl
    rw [isEmpty_false_of_ne_nil l hl]
    rfl
  constructor
  · unfold dataLine
    rw [splitTabs_field _ (natChars_ne_tab size), splitTabs_tab,
      splitTabs_field _ (threadsField_ne_tab threads),
      splitTabs_field _ hmodetab,
      splitTabs_field _ (fixed6Chars_ne_tab micros),
      splitTabs_field _ (natChars_ne_tab count),
      splitTabs_whole _ (intChars_ne_tab maxValue)]
    simp only [List.filter_cons, List.filter_nil,
      hne _ (natChars_ne_nil size), hne _ (threadsField_ne_nil threads),
      hne _ hmodene, hne _ (fixed6Chars_ne_nil micros),
      hne _ (natChars_ne_nil count), hne _ (intChars_ne_nil maxValue),
      List.isEmpty_nil, Bool.not_true, if_true]
    rfl
  · refine ⟨natChars (micros / 1000000), pad6 (micros % 1000000), rfl, ?_, ?_⟩
    · exact natCharsAux_ne_dot (micros / 1000000 + 1) (micros / 1000000)
    · exact pad6_length _ (Nat.mod_lt micros (by omega))

theorem claim_C8_witness :
    (splitTabs (dataLine 12 (some 8) modeMutex 123456789 34 25)).filter
        (fun f => !f.isEmpty)
      = [natChars 12, threadsField (some 8), modeMutex, fixed6Chars 123456789,
          natChars 34, intChars 25]
    ∧ ∃ intPart frac, fixed6Chars 123456789 = intPart ++ '.' :: frac
        ∧ (∀ c ∈ intPart, c ≠ '.') ∧ frac.length = 6 :=
  claim_C8 12 (some 8) modeMutex 123456789 34 25 (Or.inr (Or.inl rfl))
